import Mathlib

/-!
Mel-scale conversions and top-k selection.

A shallow embedding of

* `MelBanks::MelScale`, `MelBanks::InverseMelScale`, `MelBanks::MelScaleSlaney`,
  `MelBanks::InverseMelScaleSlaney` and `MelBanks::NumBins` from
  `kaldi-native-fbank/csrc/mel-computations.h`;
* `top_k` from `models/mobilenet/tflite/main.c`.

The C++ functions compute on `float`.  Every function below is written once, over an
arbitrary ordered field `α`, and takes a `FloatArith α` that says how the result of one
arithmetic operation is rounded and what the libm functions `expf` and `logf` are.
`FloatArith.exact Real.exp Real.log` is the reading over the reals (no rounding);
`binary32` rounds every operation to the nearest IEEE-754 single-precision value.
-/

namespace knf

/-! ## Arithmetic -/

/-- How `float` arithmetic is carried out: `rnd` is applied to the exact result of each
`+`, `-`, `*`, `/` and to each decimal literal; `expf` and `logf` are the libm functions,
which are not part of the repository. -/
structure FloatArith (α : Type) where
  rnd : α → α
  expf : α → α
  logf : α → α

/-- Exact arithmetic: no operation rounds. -/
def FloatArith.exact {α : Type} (expf logf : α → α) : FloatArith α :=
  ⟨fun x => x, expf, logf⟩

/-- Floor of the base-2 logarithm of a natural number, by halving at most `fuel` times. -/
def log2Fuel : ℕ → ℕ → ℕ
  | 0, _ => 0
  | fuel + 1, n => if 2 ≤ n then log2Fuel fuel (n / 2) + 1 else 0

/-- The integer `e` with `2 ^ e ≤ |x| < 2 ^ (e + 1)`, for `x ≠ 0`. -/
def ilog2 (x : ℚ) : ℤ :=
  let e0 : ℤ := (log2Fuel x.num.natAbs x.num.natAbs : ℤ) - (log2Fuel x.den x.den : ℤ)
  if |x| < (2 : ℚ) ^ e0 then e0 - 1 else e0

/-- Round a rational to the nearest integer, ties to the even one. -/
def roundHalfEven (q : ℚ) : ℤ :=
  let f := ⌊q⌋
  let r := q - f
  if r < 1 / 2 then f else if 1 / 2 < r then f + 1 else if f % 2 = 0 then f else f + 1

/-- Round a rational to the nearest IEEE-754 binary32 value (24-bit significand, ties to
even, gradual underflow below `2 ^ (-126)`).  Overflow to infinity is not represented: the
values this development rounds are far below `2 ^ 128`. -/
def roundF32 (x : ℚ) : ℚ :=
  if x = 0 then 0
  else
    let e := max (ilog2 x) (-126)
    let ulp := (2 : ℚ) ^ (e - 23)
    (roundHalfEven (x / ulp) : ℚ) * ulp

/-- Single-precision arithmetic: every operation is rounded to binary32; the libm
functions are parameters. -/
def binary32 (expf logf : ℚ → ℚ) : FloatArith ℚ :=
  ⟨roundF32, expf, logf⟩

/-! ## `MelBanks`: scale conversions -/

section MelScale

variable {α : Type} [LinearOrderedField α]

/-- HTK, mel to hz: `700.0f * (expf(mel_freq / 1127.0f) - 1.0f)`. -/
def InverseMelScale (A : FloatArith α) (mel_freq : α) : α :=
  A.rnd (700 * A.rnd (A.expf (A.rnd (mel_freq / 1127)) - 1))

/-- HTK, hz to mel: `1127.0f * logf(1.0f + freq / 700.0f)`. -/
def MelScale (A : FloatArith α) (freq : α) : α :=
  A.rnd (1127 * A.logf (A.rnd (1 + A.rnd (freq / 700))))

/-- Slaney, mel to hz: `200.0f / 3 * mel_freq` up to 15 mel, and
`1000 * expf((mel_freq - 15) * 0.06875177742094911f)` above. -/
def InverseMelScaleSlaney (A : FloatArith α) (mel_freq : α) : α :=
  if mel_freq ≤ 15 then A.rnd (A.rnd (200 / 3) * mel_freq)
  else A.rnd (1000 * A.expf (A.rnd (A.rnd (mel_freq - 15) * A.rnd 0.06875177742094911)))

/-- Slaney, hz to mel: `freq * 3 / 200.0f` up to 1000 Hz, and
`15 + 14.545078505785561f * logf(freq / 1000)` above. -/
def MelScaleSlaney (A : FloatArith α) (freq : α) : α :=
  if freq ≤ 1000 then A.rnd (A.rnd (freq * 3) / 200)
  else A.rnd (15 + A.rnd (A.rnd 14.545078505785561 * A.logf (A.rnd (freq / 1000))))

end MelScale

/-! ## `MelBanks`: the filter bank -/

section Banks

variable {α : Type} [LinearOrderedField α]

/-- Options of the mel filterbank (`struct MelBanksOptions`), with the defaults left out. -/
structure MelBanksOptions (α : Type) where
  num_bins : ℤ
  low_freq : α
  high_freq : α
  vtln_low : α
  vtln_high : α
  debug_mel : Bool
  htk_mode : Bool
  is_librosa : Bool
  norm : String

/-- Modelled from the spec: `FrameExtractionOptions` is declared in `feature-window.h`,
which is not among the sources.  The spec (data model, FrameSpectrumShape) keeps of it the
sample rate and the FFT size. -/
structure FrameExtractionOptions (α : Type) where
  samp_freq : α
  fft_size : ℕ

/-- Modelled from the spec: `num_fft_bins = fft_size/2 + 1`. -/
def FrameExtractionOptions.numFftBins (f : FrameExtractionOptions α) : ℕ := f.fft_size / 2 + 1

/-- Modelled from the spec: Nyquist is `sample_rate/2`. -/
def FrameExtractionOptions.nyquist (f : FrameExtractionOptions α) : α := f.samp_freq / 2

/-- Modelled from the spec: the ConfigError taxonomy of the error-handling section. -/
inductive ConfigError where
  | badBinCount
  | badFrequencyRange
  | degenerateVtln
  | emptyFilter
  | badOrder
  deriving DecidableEq, Repr

/-- The class `MelBanks`: one `(first nonzero fft-bin, weights)` pair per mel bin. -/
structure MelBanks (α : Type) where
  bins_ : List (ℤ × List α)
  debug_ : Bool
  htk_mode_ : Bool
  deriving DecidableEq

/-- Conversion of an integer to `int32_t` (two's complement wrap-around). -/
def toInt32 (n : ℤ) : ℤ := (n + 2 ^ 31) % 2 ^ 32 - 2 ^ 31

/-- Source: `int32_t NumBins() const { return bins_.size(); }`. -/
def MelBanks.NumBins (b : MelBanks α) : ℤ := toInt32 (b.bins_.length : ℤ)

/-- Modelled from the spec: the body of `MelBanks::VtlnWarpFreq` is not among the sources.
Spec, FrequencyWarper: identity for `warp_factor = 1` and outside `[low, high]`; otherwise
three linear segments with breakpoints `Fl = vtln_low * max 1 w`, `Fh = vtln_high * min 1 w`. -/
def VtlnWarpFreq (vtln_low vtln_high low high warp_factor freq : α) : α :=
  if warp_factor = 1 then freq
  else if freq < low ∨ high < freq then freq
  else
    let Fl := vtln_low * max 1 warp_factor
    let Fh := vtln_high * min 1 warp_factor
    if freq < Fl then low + (Fl / warp_factor - low) / (Fl - low) * (freq - low)
    else if freq ≤ Fh then freq / warp_factor
    else Fh / warp_factor + (high - Fh / warp_factor) / (high - Fh) * (freq - Fh)

/-- Modelled from the spec: a degenerate warp, `Fl` or `Fh` outside `(low, high)`. -/
def vtlnDegenerate (vtln_low vtln_high low high warp_factor : α) : Bool :=
  let Fl := vtln_low * max 1 warp_factor
  let Fh := vtln_high * min 1 warp_factor
  decide (Fl ≤ low ∨ high ≤ Fl ∨ Fh ≤ low ∨ high ≤ Fh)

/-- Modelled from the spec: the weight of fft bin `i` in the triangle with edges `L C R`,
`max(0, min((f_i−L)/(C−L), (R−f_i)/(R−C)))`. -/
def triangleWeight (L C R f : α) : α :=
  max 0 (min ((f - L) / (C - L)) ((R - f) / (R - C)))

/-- Modelled from the spec: the contiguous run of nonzero weights of one filter, with the
index of its first bin; `ConfigError` when the filter has zero support. -/
def nonzeroRun (weights : List α) : Except ConfigError (ℤ × List α) :=
  let first := (weights.takeWhile (fun w => decide (w = 0))).length
  let run := (weights.drop first).takeWhile (fun w => decide (w ≠ 0))
  if run = [] then .error .emptyFilter else .ok ((first : ℤ), run)

/-- Modelled from the spec: the filters for mel bins `k, k+1, ..., k+count-1`, given the
edge frequency of each mel point and the centre frequency of each fft bin. -/
def buildFilters (edge : ℕ → α) (scale : ℕ → α) (binFreq : List α) :
    ℕ → ℕ → Except ConfigError (List (ℤ × List α))
  | _, 0 => .ok []
  | k, count + 1 =>
    match nonzeroRun (binFreq.map fun f =>
        scale k * triangleWeight (edge k) (edge (k + 1)) (edge (k + 2)) f) with
    | .error e => .error e
    | .ok filt =>
      match buildFilters edge scale binFreq (k + 1) count with
      | .error e => .error e
      | .ok rest => .ok (filt :: rest)

/-- Modelled from the spec: the filterbank builder (FilterBankBuilder), the bodies of
`InitKaldiMelBanks` and `InitLibrosaMelBanks` not being among the sources.  `toMel` and
`toHz` are the scale of the strategy; `normalise` divides each filter by its bandwidth. -/
def initMelBanks (toMel toHz : α → α) (normalise : Bool) (opts : MelBanksOptions α)
    (frame_opts : FrameExtractionOptions α) (vtln_warp_factor : α) :
    Except ConfigError (List (ℤ × List α)) :=
  let nyquist := frame_opts.nyquist
  let low := opts.low_freq
  let high := if opts.high_freq ≤ 0 then nyquist + opts.high_freq else opts.high_freq
  let vtln_high := if opts.vtln_high < 0 then nyquist + opts.vtln_high else opts.vtln_high
  if opts.num_bins < 1 then .error .badBinCount
  else if high ≤ low then .error .badFrequencyRange
  else if vtln_warp_factor ≠ 1 ∧ vtlnDegenerate opts.vtln_low vtln_high low high vtln_warp_factor
  then .error .degenerateVtln
  else
    let mel_low := toMel low
    let mel_high := toMel high
    let delta := (mel_high - mel_low) / ((opts.num_bins : α) + 1)
    let edge : ℕ → α := fun j =>
      VtlnWarpFreq opts.vtln_low vtln_high low high vtln_warp_factor (toHz (mel_low + j * delta))
    let scale : ℕ → α := fun k => if normalise then 2 / (edge (k + 2) - edge k) else 1
    let num_fft_bins := frame_opts.numFftBins
    let binFreq := (List.range num_fft_bins).map fun (i : ℕ) =>
      (i : α) * nyquist / ((num_fft_bins : α) - 1)
    buildFilters edge scale binFreq 0 opts.num_bins.toNat

/-- Modelled from the spec: the constructor `MelBanks(opts, frame_opts, vtln_warp_factor)`,
whose body is not among the sources: the HTK strategy, or the Librosa strategy on the Slaney
scale when `is_librosa` is set. -/
def MelBanks.init (A : FloatArith α) (opts : MelBanksOptions α)
    (frame_opts : FrameExtractionOptions α) (vtln_warp_factor : α) :
    Except ConfigError (MelBanks α) :=
  let built :=
    if opts.is_librosa then
      initMelBanks (MelScaleSlaney A) (InverseMelScaleSlaney A) (opts.norm = "slaney")
        opts frame_opts vtln_warp_factor
    else
      initMelBanks (MelScale A) (InverseMelScale A) false opts frame_opts vtln_warp_factor
  match built with
  | .error e => .error e
  | .ok bins => .ok ⟨bins, opts.debug_mel, opts.htk_mode⟩

/-- Modelled from the spec: the constructor `MelBanks(weights, num_rows, num_cols)`, whose
body is not among the sources: the row-major matrix is loaded verbatim, one filter per row. -/
def MelBanks.ofMatrix (weights : ℕ → α) (num_rows num_cols : ℕ) : MelBanks α :=
  ⟨(List.range num_rows).map fun (i : ℕ) =>
      ((0 : ℤ), (List.range num_cols).map fun (j : ℕ) => weights (i * num_cols + j)),
    false, false⟩

end Banks

deriving instance DecidableEq for Except

/-- A rational stand-in for libm, used to run the builder on a concrete configuration:
exact arithmetic with `expf x = 1 + x` and `logf x = x - 1`. -/
def linearLibm : FloatArith ℚ := FloatArith.exact (fun x => 1 + x) (fun x => x - 1)

/-- A concrete configuration: 3 bins, 20 Hz to Nyquist, HTK strategy. -/
def exampleOptions : MelBanksOptions ℚ := ⟨3, 20, 0, 100, -500, false, false, false, "slaney"⟩

/-- A concrete frame shape: 16 kHz, FFT size 16 (9 fft bins, 1000 Hz apart). -/
def exampleFrame : FrameExtractionOptions ℚ := ⟨16000, 16⟩

/-- The bank the builder returns on `exampleOptions` and `exampleFrame` without warping. -/
def exampleBank : MelBanks ℚ :=
  ⟨[(1, [28 / 57, 132 / 133, 202 / 399, 2 / 399]),
    (3, [197 / 399, 397 / 399, 67 / 133, 1 / 399]),
    (5, [66 / 133, 398 / 399, 200 / 399])], false, false⟩

/-! ## Liftering coefficients -/

section Lifter

variable {α : Type} [LinearOrderedField α]

/-- Modelled from the spec: the body of `ComputeLifterCoeffs(float Q, std::vector<float>
*coeffs)` is not among the sources, only its declaration.  Spec, LifterCoefficientGenerator:
`coeffs[0] = 1`; for `i = 1..order-1`, `coeffs[i] = 1 + (Q/2)·sin(π·i/Q)`; `ConfigError`
for `order < 1`.  The order is the size of the vector passed in; `sinf` and `pi` are the
libm sine and the constant `M_PI`. -/
def ComputeLifterCoeffs (sinf : α → α) (pi : α) (Q : α) (coeffs : List α) :
    Except ConfigError (List α) :=
  if coeffs.length < 1 then .error .badOrder
  else .ok ((List.range coeffs.length).map fun (i : ℕ) =>
    if i = 0 then 1 else 1 + Q / 2 * sinf (pi * (i : α) / Q))

end Lifter

end knf

/-! ## `top_k` (MobileNet demo) -/

section TopK

variable {α : Type} [LinearOrder α] [Inhabited α]

/-- The score `data[indices[j]]`.  A read outside an array yields a default value; the
theorems below show that for `k ≤ n` every index read stays inside. -/
def score (data : List α) (indices : List ℕ) (j : ℕ) : α :=
  data.getD (indices.getD j 0) default

/-- First loop: `for (int i = 0; i < k; ++i) indices[i] = i;`. -/
def initIndices (k : ℕ) (indices : List ℕ) : List ℕ :=
  (List.range' 0 k).foldl (fun ind i => ind.set i i) indices

/-- Inner loop of the selection: `int min_idx = 0; for (int j = 1; j < k; ++j)
if (data[indices[j]] < data[indices[min_idx]]) min_idx = j;`. -/
def findMin (data : List α) (indices : List ℕ) (k : ℕ) : ℕ :=
  (List.range' 1 (k - 1)).foldl
    (fun min_idx j => if score data indices j < score data indices min_idx then j else min_idx) 0

/-- The body of the selection loop for one `i`: find `min_idx`, then
`if (data[i] > data[indices[min_idx]]) indices[min_idx] = i;`. -/
def selectStep (data : List α) (k : ℕ) (indices : List ℕ) (i : ℕ) : List ℕ :=
  let min_idx := findMin data indices k
  if data.getD i default > score data indices min_idx then indices.set min_idx i else indices

/-- Selection loop: `for (int i = k; i < n; ++i) { ... }`. -/
def selectPass (data : List α) (n k : ℕ) (indices : List ℕ) : List ℕ :=
  (List.range' k (n - k)).foldl (selectStep data k) indices

/-- The body of the inner sort loop: `if (data[indices[j]] > data[indices[i]])` exchange
`indices[i]` and `indices[j]`. -/
def swapStep (data : List α) (i : ℕ) (indices : List ℕ) (j : ℕ) : List ℕ :=
  if score data indices j > score data indices i then
    (indices.set i (indices.getD j 0)).set j (indices.getD i 0)
  else indices

/-- The exchange sort: `for (int i = 0; i < k-1; ++i) for (int j = i+1; j < k; ++j) { ... }`. -/
def sortPass (data : List α) (k : ℕ) (indices : List ℕ) : List ℕ :=
  (List.range' 0 (k - 1)).foldl
    (fun ind i => (List.range' (i + 1) (k - (i + 1))).foldl (swapStep data i) ind) indices

/-- The function `top_k(float* data, int n, int* indices, int k)`: the final contents of the two
arrays.  The scores are any linear order (no NaN); `data` is only read. -/
def top_k (data : List α) (n : ℕ) (indices : List ℕ) (k : ℕ) : List α × List ℕ :=
  (data, sortPass data k (selectPass data n k (initIndices k indices)))


/-- The selection invariant after the positions below `i` have been seen: `ind` holds `k`
distinct positions below `i`, and no position below `i` outside `ind` beats one inside. -/
def TopInv (data : List α) (k i : ℕ) (ind : List ℕ) : Prop :=
  ind.length = k ∧ ind.Nodup ∧ (∀ x ∈ ind, x < i) ∧
    ∀ p, p < i → p ∉ ind → ∀ q ∈ ind, data.getD p default ≤ data.getD q default

/-- Positions before `i` dominate every later position. -/
def PrefixSorted (data : List α) (k i : ℕ) (ind : List ℕ) : Prop :=
  ∀ a b, a < i → a < b → b < k → score data ind b ≤ score data ind a

end TopK

/-! ## The scale conversions read over the reals -/

namespace knf

section RealReading

theorem InverseMelScale_MelScale_exact (f : ℝ) (hf : -700 < f) :
    InverseMelScale (FloatArith.exact Real.exp Real.log)
      (MelScale (FloatArith.exact Real.exp Real.log) f) = f := by
  have hpos : (0 : ℝ) < 1 + f / 700 := by linarith
  simp only [InverseMelScale, MelScale, FloatArith.exact]
  rw [mul_div_cancel_left₀ _ (by norm_num : (1127 : ℝ) ≠ 0), Real.exp_log hpos]
  ring

theorem MelScale_InverseMelScale_exact (m : ℝ) :
    MelScale (FloatArith.exact Real.exp Real.log)
      (InverseMelScale (FloatArith.exact Real.exp Real.log) m) = m := by
  simp only [InverseMelScale, MelScale, FloatArith.exact]
  rw [mul_div_cancel_left₀ _ (by norm_num : (700 : ℝ) ≠ 0)]
  rw [show (1 : ℝ) + (Real.exp (m / 1127) - 1) = Real.exp (m / 1127) by ring, Real.log_exp]
  ring

theorem MelScale_strictMonoOn :
    StrictMonoOn (MelScale (FloatArith.exact Real.exp Real.log)) (Set.Ioi (-700)) := by
  intro a ha b _ hab
  simp only [Set.mem_Ioi] at ha
  simp only [MelScale, FloatArith.exact]
  have h1 : (0 : ℝ) < 1 + a / 700 := by linarith
  have h2 : 1 + a / 700 < 1 + b / 700 := by linarith
  have := Real.log_lt_log h1 h2
  linarith

theorem InverseMelScale_strictMono :
    StrictMono (InverseMelScale (FloatArith.exact Real.exp Real.log)) := by
  intro a b hab
  simp only [InverseMelScale, FloatArith.exact]
  have : Real.exp (a / 1127) < Real.exp (b / 1127) :=
    Real.exp_lt_exp.mpr (by linarith)
  linarith

theorem MelScaleSlaney_strictMono :
    StrictMono (MelScaleSlaney (FloatArith.exact Real.exp Real.log)) := by
  intro a b hab
  simp only [MelScaleSlaney, FloatArith.exact]
  by_cases ha : a ≤ 1000
  · by_cases hb : b ≤ 1000
    · rw [if_pos ha, if_pos hb]; linarith
    · rw [if_pos ha, if_neg hb]
      have hb1 : (1 : ℝ) < b / 1000 := by
        rw [lt_div_iff₀ (by norm_num)]; linarith
      have hlog := Real.log_pos hb1
      have : 0 < (14.545078505785561 : ℝ) * Real.log (b / 1000) :=
        mul_pos (by norm_num) hlog
      linarith
  · have hb : ¬ b ≤ 1000 := by linarith
    rw [if_neg ha, if_neg hb]
    have ha0 : (0 : ℝ) < a / 1000 := by apply div_pos <;> linarith
    have hlt : a / 1000 < b / 1000 := by linarith
    have hlog := Real.log_lt_log ha0 hlt
    have : (14.545078505785561 : ℝ) * Real.log (a / 1000)
        < 14.545078505785561 * Real.log (b / 1000) :=
      mul_lt_mul_of_pos_left hlog (by norm_num)
    linarith

theorem InverseMelScaleSlaney_strictMono :
    StrictMono (InverseMelScaleSlaney (FloatArith.exact Real.exp Real.log)) := by
  intro a b hab
  simp only [InverseMelScaleSlaney, FloatArith.exact]
  by_cases ha : a ≤ 15
  · by_cases hb : b ≤ 15
    · rw [if_pos ha, if_pos hb]; linarith
    · rw [if_pos ha, if_neg hb]
      have hpos : (0 : ℝ) < (b - 15) * 0.06875177742094911 :=
        mul_pos (by linarith) (by norm_num)
      have h1 : (1 : ℝ) < Real.exp ((b - 15) * 0.06875177742094911) := by
        rw [← Real.exp_zero]; exact Real.exp_lt_exp.mpr hpos
      linarith
  · have hb : ¬ b ≤ 15 := by linarith
    rw [if_neg ha, if_neg hb]
    have hlt : (a - 15) * 0.06875177742094911 < (b - 15) * (0.06875177742094911 : ℝ) :=
      mul_lt_mul_of_pos_right (by linarith) (by norm_num)
    have := Real.exp_lt_exp.mpr hlt
    linarith

theorem slaney_constants_product :
    |(14.545078505785561 : ℝ) * 0.06875177742094911 - 1| ≤ 1 / 10 ^ 16 := by
  rw [abs_le]; constructor <;> norm_num

theorem InverseMelScaleSlaney_MelScaleSlaney_linear (f : ℝ) (hf : f ≤ 1000) :
    InverseMelScaleSlaney (FloatArith.exact Real.exp Real.log)
      (MelScaleSlaney (FloatArith.exact Real.exp Real.log) f) = f := by
  have hm : f * 3 / 200 ≤ 15 := by linarith
  simp only [InverseMelScaleSlaney, MelScaleSlaney, FloatArith.exact, if_pos hf, if_pos hm]
  ring

theorem InverseMelScaleSlaney_MelScaleSlaney_log (f : ℝ) (hf : 1000 < f) :
    InverseMelScaleSlaney (FloatArith.exact Real.exp Real.log)
      (MelScaleSlaney (FloatArith.exact Real.exp Real.log) f) =
    f * Real.exp ((14.545078505785561 * 0.06875177742094911 - 1) * Real.log (f / 1000)) := by
  have hx : (1 : ℝ) < f / 1000 := by rw [lt_div_iff₀ (by norm_num)]; linarith
  have hL : 0 < Real.log (f / 1000) := Real.log_pos hx
  have hm : ¬ (15 + 14.545078505785561 * Real.log (f / 1000) ≤ 15) := by
    have : 0 < (14.545078505785561 : ℝ) * Real.log (f / 1000) := mul_pos (by norm_num) hL
    linarith
  simp only [InverseMelScaleSlaney, MelScaleSlaney, FloatArith.exact, if_neg (not_le.mpr hf),
    if_neg hm]
  have hsplit : (15 + 14.545078505785561 * Real.log (f / 1000) - 15) * 0.06875177742094911
      = Real.log (f / 1000)
        + (14.545078505785561 * 0.06875177742094911 - 1) * Real.log (f / 1000) := by ring
  rw [hsplit, Real.exp_add, Real.exp_log (by linarith)]
  field_simp

theorem MelScaleSlaney_continuous :
    Continuous (MelScaleSlaney (FloatArith.exact Real.exp Real.log)) := by
  have heq : MelScaleSlaney (FloatArith.exact Real.exp Real.log) = fun x : ℝ =>
      if x ≤ 1000 then x * 3 / 200
      else 15 + 14.545078505785561 * Real.log (max x 1000 / 1000) := by
    funext x
    simp only [MelScaleSlaney, FloatArith.exact]
    by_cases hx : x ≤ 1000
    · simp [hx]
    · rw [if_neg hx, if_neg hx, max_eq_left (le_of_not_le hx)]
  rw [heq]
  refine Continuous.if_le (by continuity) ?_ continuous_id continuous_const ?_
  · refine continuous_const.add (continuous_const.mul (Continuous.log ?_ ?_))
    · exact (continuous_id.max continuous_const).div_const _
    · intro x
      have : (1000 : ℝ) ≤ max x 1000 := le_max_right _ _
      positivity
  · intro x hx
    simp only [id] at hx
    subst hx
    norm_num

theorem InverseMelScaleSlaney_continuous :
    Continuous (InverseMelScaleSlaney (FloatArith.exact Real.exp Real.log)) := by
  have heq : InverseMelScaleSlaney (FloatArith.exact Real.exp Real.log) = fun x : ℝ =>
      if x ≤ 15 then 200 / 3 * x
      else 1000 * Real.exp ((x - 15) * 0.06875177742094911) := by
    funext x
    simp only [InverseMelScaleSlaney, FloatArith.exact]
  rw [heq]
  refine Continuous.if_le (by continuity) (by continuity) continuous_id continuous_const ?_
  intro x hx
  simp only [id] at hx
  subst hx
  norm_num

/-- C1: read over the reals, the HTK conversions are mutually inverse.  For every frequency
`f > -700`, `InverseMelScale (MelScale f) = f`; for every mel value `m`,
`MelScale (InverseMelScale m) = m`; hence on `0 ≤ f ≤ 8000` the round trip is within
`1e-3` of `f`. -/
theorem MelScale_roundtrip :
    (∀ f : ℝ, -700 < f →
      InverseMelScale (FloatArith.exact Real.exp Real.log)
        (MelScale (FloatArith.exact Real.exp Real.log) f) = f) ∧
    (∀ m : ℝ,
      MelScale (FloatArith.exact Real.exp Real.log)
        (InverseMelScale (FloatArith.exact Real.exp Real.log) m) = m) ∧
    (∀ f : ℝ, 0 ≤ f → f ≤ 8000 →
      |InverseMelScale (FloatArith.exact Real.exp Real.log)
        (MelScale (FloatArith.exact Real.exp Real.log) f) - f| ≤ 1 / 1000) := by
  refine ⟨InverseMelScale_MelScale_exact, MelScale_InverseMelScale_exact, ?_⟩
  intro f h0 _
  rw [InverseMelScale_MelScale_exact f (by linarith)]
  norm_num

/-- C1 at concrete inputs: the round trip at 440 Hz is exact and at 8000 Hz within `1e-3`. -/
theorem MelScale_roundtrip_witness :
    InverseMelScale (FloatArith.exact Real.exp Real.log)
        (MelScale (FloatArith.exact Real.exp Real.log) 440) = 440 ∧
    |InverseMelScale (FloatArith.exact Real.exp Real.log)
        (MelScale (FloatArith.exact Real.exp Real.log) 8000) - 8000| ≤ 1 / 1000 :=
  ⟨MelScale_roundtrip.1 440 (by norm_num),
   MelScale_roundtrip.2.2 8000 (by norm_num) (by norm_num)⟩

/-- C2: read over the reals with the decimal constants as written in the code, the Slaney
round trip stays within `1e-3`: for every `f` with `0 ≤ f ≤ 8000`,
`|InverseMelScaleSlaney (MelScaleSlaney f) - f| ≤ 1e-3`, on the linear branch and on the
logarithmic branch. -/
theorem MelScaleSlaney_roundtrip (f : ℝ) (h0 : 0 ≤ f) (h8 : f ≤ 8000) :
    |InverseMelScaleSlaney (FloatArith.exact Real.exp Real.log)
      (MelScaleSlaney (FloatArith.exact Real.exp Real.log) f) - f| ≤ 1 / 1000 := by
  rcases le_or_lt f 1000 with hf | hf
  · rw [InverseMelScaleSlaney_MelScaleSlaney_linear f hf]; norm_num
  · rw [InverseMelScaleSlaney_MelScaleSlaney_log f hf]
    have hx : (1 : ℝ) < f / 1000 := by rw [lt_div_iff₀ (by norm_num)]; linarith
    have hL0 : 0 < Real.log (f / 1000) := Real.log_pos hx
    have hL7 : Real.log (f / 1000) ≤ 7 := by
      have := Real.log_le_sub_one_of_pos (by linarith : (0 : ℝ) < f / 1000)
      have : f / 1000 ≤ 8 := by rw [div_le_iff₀ (by norm_num)]; linarith
      linarith
    set t := (14.545078505785561 * 0.06875177742094911 - 1) * Real.log (f / 1000) with ht
    have htabs : |t| ≤ 7 / 10 ^ 16 := by
      rw [ht, abs_mul, abs_of_pos hL0]
      calc |(14.545078505785561 : ℝ) * 0.06875177742094911 - 1| * Real.log (f / 1000)
          ≤ (1 / 10 ^ 16) * 7 :=
            mul_le_mul slaney_constants_product hL7 hL0.le (by norm_num)
        _ = 7 / 10 ^ 16 := by ring
    have hexp : |Real.exp t - 1| ≤ 2 * |t| :=
      Real.abs_exp_sub_one_le (htabs.trans (by norm_num))
    have hfe : f * Real.exp t - f = f * (Real.exp t - 1) := by ring
    rw [hfe, abs_mul, abs_of_nonneg h0]
    calc f * |Real.exp t - 1| ≤ 8000 * (2 * (7 / 10 ^ 16)) := by
          apply mul_le_mul h8 (hexp.trans (by linarith)) (abs_nonneg _) (by norm_num)
      _ ≤ 1 / 1000 := by norm_num

/-- C2 at a concrete input on the logarithmic branch, 4000 Hz. -/
theorem MelScaleSlaney_roundtrip_witness :
    |InverseMelScaleSlaney (FloatArith.exact Real.exp Real.log)
      (MelScaleSlaney (FloatArith.exact Real.exp Real.log) 4000) - 4000| ≤ 1 / 1000 :=
  MelScaleSlaney_roundtrip 4000 (by norm_num) (by norm_num)

/-- C3, as stated, fails in single precision: `200.0f / 3` rounds to `8738133 / 2 ^ 17`, and
its product with `15` rounds to `16383999 / 2 ^ 14`, so `InverseMelScaleSlaney(15)` is not
`1000`.  (The libm parameters are not called on this branch.) -/
theorem InverseMelScaleSlaney_binary32_boundary_ne :
    ¬ (MelScaleSlaney (binary32 (fun x => x) (fun x => x)) 1000 = 15 ∧
       InverseMelScaleSlaney (binary32 (fun x => x) (fun x => x)) 15 = 1000) := by
  decide!

/-- C3, amended: both boundary inputs take the linear branch.  Over the reals
`MelScaleSlaney 1000 = 15` and `InverseMelScaleSlaney 15 = 1000`.  In single precision,
whatever libm is, `MelScaleSlaney 1000 = 15` still holds exactly, while
`InverseMelScaleSlaney 15 = 16383999 / 16384`, the binary32 value next below `1000`. -/
theorem MelScaleSlaney_boundary_values :
    (MelScaleSlaney (FloatArith.exact Real.exp Real.log) 1000 = 15 ∧
      InverseMelScaleSlaney (FloatArith.exact Real.exp Real.log) 15 = 1000) ∧
    (∀ expf logf : ℚ → ℚ,
      MelScaleSlaney (binary32 expf logf) 1000 = 15 ∧
      InverseMelScaleSlaney (binary32 expf logf) 15 = 16383999 / 16384 ∧
      (1000 : ℚ) - 16383999 / 16384 = 1 / 2 ^ 14) := by
  refine ⟨⟨?_, ?_⟩, ?_⟩
  · simp only [MelScaleSlaney, FloatArith.exact]; norm_num
  · simp only [InverseMelScaleSlaney, FloatArith.exact]; norm_num
  · intro expf logf
    have h1 : roundF32 (roundF32 (1000 * 3) / 200) = 15 := by decide!
    have h2 : roundF32 (roundF32 (200 / 3) * 15) = 16383999 / 16384 := by decide!
    refine ⟨?_, ?_, by norm_num⟩
    · have hle : (1000 : ℚ) ≤ 1000 := le_refl _
      simp only [MelScaleSlaney, binary32, if_pos hle, h1]
    · have hle : (15 : ℚ) ≤ 15 := le_refl _
      simp only [InverseMelScaleSlaney, binary32, if_pos hle, h2]

/-- C4: read over the reals, `MelScaleSlaney` is continuous at 1000 Hz and
`InverseMelScaleSlaney` is continuous at 15 mel.  The logarithmic branch tends to
`15 = 1000 * 3 / 200` as `hz` tends to 1000 from above, and the exponential branch tends to
`1000 = 15 * 200 / 3` as `mel` tends to 15 from above. -/
theorem MelScaleSlaney_continuousAt_breakpoint :
    ContinuousAt (MelScaleSlaney (FloatArith.exact Real.exp Real.log)) 1000 ∧
    ContinuousAt (InverseMelScaleSlaney (FloatArith.exact Real.exp Real.log)) 15 ∧
    Filter.Tendsto (fun hz : ℝ => 15 + 14.545078505785561 * Real.log (hz / 1000))
      (nhdsWithin 1000 (Set.Ioi 1000))
      (nhds (MelScaleSlaney (FloatArith.exact Real.exp Real.log) 1000)) ∧
    Filter.Tendsto (fun mel : ℝ => 1000 * Real.exp ((mel - 15) * 0.06875177742094911))
      (nhdsWithin 15 (Set.Ioi 15))
      (nhds (InverseMelScaleSlaney (FloatArith.exact Real.exp Real.log) 15)) ∧
    MelScaleSlaney (FloatArith.exact Real.exp Real.log) 1000 = 1000 * 3 / 200 ∧
    InverseMelScaleSlaney (FloatArith.exact Real.exp Real.log) 15 = 15 * 200 / 3 := by
  have hv1 : MelScaleSlaney (FloatArith.exact Real.exp Real.log) 1000 = 15 := by
    simp only [MelScaleSlaney, FloatArith.exact]; norm_num
  have hv2 : InverseMelScaleSlaney (FloatArith.exact Real.exp Real.log) 15 = 1000 := by
    simp only [InverseMelScaleSlaney, FloatArith.exact]; norm_num
  refine ⟨MelScaleSlaney_continuous.continuousAt, InverseMelScaleSlaney_continuous.continuousAt,
    ?_, ?_, by rw [hv1]; norm_num, by rw [hv2]; norm_num⟩
  · rw [hv1]
    have hc : ContinuousAt (fun hz : ℝ => 15 + 14.545078505785561 * Real.log (hz / 1000))
        1000 := by
      refine continuousAt_const.add (continuousAt_const.mul (ContinuousAt.log ?_ ?_))
      · exact continuousAt_id.div_const _
      · norm_num
    have ht := hc.tendsto
    have hval : (15 : ℝ) + 14.545078505785561 * Real.log (1000 / 1000) = 15 := by norm_num
    rw [hval] at ht
    exact ht.mono_left nhdsWithin_le_nhds
  · rw [hv2]
    have hc : Continuous (fun mel : ℝ => 1000 * Real.exp ((mel - 15) * 0.06875177742094911)) := by
      continuity
    have ht := hc.continuousAt.tendsto (x := 15)
    have hval : (1000 : ℝ) * Real.exp ((15 - 15) * 0.06875177742094911) = 1000 := by norm_num
    rw [hval] at ht
    exact ht.mono_left nhdsWithin_le_nhds

/-- C9: read over the reals both Hz-to-mel conversions are strictly increasing:
`MelScale` on frequencies above `-700`, `MelScaleSlaney` on all reals, also across the
1000 Hz breakpoint.  The two inverse conversions are strictly increasing as well, so
increasing mel points map back to strictly increasing edge frequencies. -/
theorem MelScale_strictly_increasing :
    (∀ f1 f2 : ℝ, -700 < f1 → f1 < f2 →
      MelScale (FloatArith.exact Real.exp Real.log) f1
        < MelScale (FloatArith.exact Real.exp Real.log) f2) ∧
    (∀ f1 f2 : ℝ, f1 < f2 →
      MelScaleSlaney (FloatArith.exact Real.exp Real.log) f1
        < MelScaleSlaney (FloatArith.exact Real.exp Real.log) f2) ∧
    (∀ m1 m2 : ℝ, m1 < m2 →
      InverseMelScale (FloatArith.exact Real.exp Real.log) m1
        < InverseMelScale (FloatArith.exact Real.exp Real.log) m2) ∧
    (∀ m1 m2 : ℝ, m1 < m2 →
      InverseMelScaleSlaney (FloatArith.exact Real.exp Real.log) m1
        < InverseMelScaleSlaney (FloatArith.exact Real.exp Real.log) m2) :=
  ⟨fun _ _ h1 h12 => MelScale_strictMonoOn (Set.mem_Ioi.mpr h1)
      (Set.mem_Ioi.mpr (h1.trans h12)) h12,
    fun _ _ h => MelScaleSlaney_strictMono h,
    fun _ _ h => InverseMelScale_strictMono h,
    fun _ _ h => InverseMelScaleSlaney_strictMono h⟩

/-- C9 at concrete inputs: 0 Hz against 100 Hz on the HTK scale, and 900 Hz against 1100 Hz
across the Slaney breakpoint. -/
theorem MelScale_strictly_increasing_witness :
    MelScale (FloatArith.exact Real.exp Real.log) 0
      < MelScale (FloatArith.exact Real.exp Real.log) 100 ∧
    MelScaleSlaney (FloatArith.exact Real.exp Real.log) 900
      < MelScaleSlaney (FloatArith.exact Real.exp Real.log) 1100 :=
  ⟨MelScale_strictly_increasing.1 0 100 (by norm_num) (by norm_num),
   MelScale_strictly_increasing.2.1 900 1100 (by norm_num)⟩

end RealReading

end knf

/-! ## The filter bank and the liftering coefficients -/

namespace knf

theorem toInt32_of_lt (n : ℤ) (h0 : 0 ≤ n) (h : n < 2 ^ 31) : toInt32 n = n := by
  unfold toInt32
  norm_num at h ⊢
  omega

section BanksTheorems

variable {α : Type} [LinearOrderedField α]

theorem buildFilters_length (edge scale : ℕ → α) (binFreq : List α) :
    ∀ (count k : ℕ) (l : List (ℤ × List α)),
      buildFilters edge scale binFreq k count = .ok l → l.length = count := by
  intro count
  induction count with
  | zero =>
    intro k l h
    simp only [buildFilters, Except.ok.injEq] at h
    subst h; rfl
  | succ c ih =>
    intro k l h
    simp only [buildFilters] at h
    split at h
    · exact absurd h (by simp)
    · split at h
      · exact absurd h (by simp)
      · rename_i rest hrest
        simp only [Except.ok.injEq] at h
        subst h
        simp [ih (k + 1) rest hrest]

theorem initMelBanks_length (toMel toHz : α → α) (normalise : Bool) (opts : MelBanksOptions α)
    (frame_opts : FrameExtractionOptions α) (w : α) (l : List (ℤ × List α))
    (h : initMelBanks toMel toHz normalise opts frame_opts w = .ok l) :
    (l.length : ℤ) = opts.num_bins := by
  unfold initMelBanks at h
  simp only at h
  have key : ∀ e s bf, buildFilters (α := α) e s bf 0 opts.num_bins.toNat = .ok l →
      ¬ opts.num_bins < 1 → (l.length : ℤ) = opts.num_bins := by
    intro e s bf hb hn
    rw [buildFilters_length _ _ _ _ _ _ hb]
    omega
  split_ifs at h
  all_goals exact key _ _ _ h (by assumption)

theorem MelBanks.init_length (A : FloatArith α) (opts : MelBanksOptions α)
    (frame_opts : FrameExtractionOptions α) (w : α) (b : MelBanks α)
    (h : MelBanks.init A opts frame_opts w = .ok b) :
    (b.bins_.length : ℤ) = opts.num_bins := by
  unfold MelBanks.init at h
  simp only at h
  split at h
  · exact absurd h (by simp)
  · rename_i bins hb
    simp only [Except.ok.injEq] at h
    subst h
    simp only
    by_cases hl : opts.is_librosa = true
    · rw [if_pos hl] at hb
      exact initMelBanks_length _ _ _ _ _ _ _ hb
    · rw [if_neg hl] at hb
      exact initMelBanks_length _ _ _ _ _ _ _ hb

/-- C5: `NumBins()` returns the number of filters held by the bank, the length of `bins_`
(a count that fits `int32_t`).  For a bank built from a configuration it equals the
configured `num_bins`; for a bank built from an external `num_rows` by `num_cols` weight
matrix it equals `num_rows`. -/
theorem MelBanks.NumBins_spec :
    (∀ b : MelBanks α, (b.bins_.length : ℤ) < 2 ^ 31 → b.NumBins = b.bins_.length) ∧
    (∀ (A : FloatArith α) (opts : MelBanksOptions α) (frame_opts : FrameExtractionOptions α)
        (vtln_warp_factor : α) (b : MelBanks α),
      opts.num_bins < 2 ^ 31 →
      MelBanks.init A opts frame_opts vtln_warp_factor = .ok b →
      b.NumBins = opts.num_bins ∧ (b.bins_.length : ℤ) = opts.num_bins) ∧
    (∀ (weights : ℕ → α) (num_rows num_cols : ℕ),
      (num_rows : ℤ) < 2 ^ 31 →
      (MelBanks.ofMatrix weights num_rows num_cols).NumBins = num_rows ∧
        (MelBanks.ofMatrix weights num_rows num_cols).bins_.length = num_rows) := by
  refine ⟨?_, ?_, ?_⟩
  · intro b hb
    exact toInt32_of_lt _ (Int.natCast_nonneg _) hb
  · intro A opts frame_opts w b hlt hb
    have hlen := MelBanks.init_length A opts frame_opts w b hb
    refine ⟨?_, hlen⟩
    unfold MelBanks.NumBins
    rw [hlen]
    exact toInt32_of_lt _ (hlen ▸ Int.natCast_nonneg _) hlt
  · intro weights num_rows num_cols hlt
    have hlen : (MelBanks.ofMatrix weights num_rows num_cols).bins_.length = num_rows := by
      simp [MelBanks.ofMatrix]
    refine ⟨?_, hlen⟩
    unfold MelBanks.NumBins
    rw [hlen]
    exact toInt32_of_lt _ (Int.natCast_nonneg _) hlt

end BanksTheorems

/-- C5 at concrete inputs: the builder returns `exampleBank` on the example configuration,
whose `NumBins` is the configured 3; a bank loaded from a 2 by 3 matrix has `NumBins` 2. -/
theorem MelBanks.NumBins_spec_witness :
    MelBanks.init linearLibm exampleOptions exampleFrame 1 = .ok exampleBank ∧
    exampleBank.NumBins = 3 ∧
    (MelBanks.ofMatrix (fun i => (i : ℚ)) 2 3).NumBins = 2 :=
  ⟨by decide!,
   (MelBanks.NumBins_spec.2.1 linearLibm exampleOptions exampleFrame 1 exampleBank
      (by decide) (by decide!)).1,
   (MelBanks.NumBins_spec.2.2 (fun i => (i : ℚ)) 2 3 (by norm_num)).1⟩

/-- C6: for every `Q` and every coefficient vector of length `order ≥ 1`,
`ComputeLifterCoeffs` succeeds with `order` coefficients, `coeffs[0] = 1`, and
`coeffs[i] = 1 + (Q/2) * sin(pi * i / Q)` for `1 ≤ i ≤ order - 1`. -/
theorem ComputeLifterCoeffs_spec (Q : ℝ) (coeffs : List ℝ) (order : ℕ)
    (hlen : coeffs.length = order) (horder : 1 ≤ order) :
    ∃ out : List ℝ, ComputeLifterCoeffs Real.sin Real.pi Q coeffs = .ok out ∧
      out.length = order ∧ out[0]? = some 1 ∧
      ∀ i : ℕ, 1 ≤ i → i < order →
        out[i]? = some (1 + Q / 2 * Real.sin (Real.pi * (i : ℝ) / Q)) := by
  refine ⟨(List.range coeffs.length).map fun (i : ℕ) =>
    if i = 0 then 1 else 1 + Q / 2 * Real.sin (Real.pi * (i : ℝ) / Q), ?_, ?_, ?_, ?_⟩
  · unfold ComputeLifterCoeffs
    rw [if_neg (by omega)]
  · simp [hlen]
  · rw [List.getElem?_map, List.getElem?_range (by omega)]
    simp
  · intro i hi1 hi2
    rw [List.getElem?_map, List.getElem?_range (by omega)]
    have : i ≠ 0 := by omega
    simp [this]

/-- C6 at the input of the spec, `Q = 5` and a vector of 13 coefficients. -/
theorem ComputeLifterCoeffs_spec_witness :
    ∃ out : List ℝ,
      ComputeLifterCoeffs Real.sin Real.pi 5 (List.replicate 13 0) = .ok out ∧
      out.length = 13 ∧ out[0]? = some 1 ∧
      ∀ i : ℕ, 1 ≤ i → i < 13 →
        out[i]? = some (1 + 5 / 2 * Real.sin (Real.pi * (i : ℝ) / 5)) :=
  ComputeLifterCoeffs_spec 5 (List.replicate 13 0) 13 (by simp) (by norm_num)

end knf

/-! ## `top_k` selects and sorts -/

/-- Loop rule for `for (i = s; i < s + n; ++i)`: a property that holds on entry and is kept by
the body holds on exit. -/
theorem foldl_range'_inv {β : Type} (f : β → ℕ → β) (P : ℕ → β → Prop) :
    ∀ (n s : ℕ) (b : β), P s b →
      (∀ i b, s ≤ i → i < s + n → P i b → P (i + 1) (f b i)) →
      P (s + n) ((List.range' s n).foldl f b) := by
  intro n
  induction n with
  | zero => intro s b h _; simpa using h
  | succ n ih =>
    intro s b h hstep
    rw [List.range'_succ, List.foldl_cons]
    have := ih (s + 1) (f b s) (hstep s b le_rfl (by omega) h)
      (fun i b hi hlt hP => hstep i b (by omega) (by omega) hP)
    rwa [show s + 1 + n = s + (n + 1) by omega] at this

theorem getD_set (l : List ℕ) (i j v : ℕ) :
    (l.set i v).getD j 0 = if i = j ∧ i < l.length then v else l.getD j 0 := by
  simp only [List.getD_eq_getElem?_getD, List.getElem?_set]
  by_cases h : i = j
  · subst h
    by_cases h2 : i < l.length
    · simp [h2]
    · simp [h2, List.getElem?_eq_none (not_lt.mp h2)]
  · simp [h]

theorem swap_perm (l : List ℕ) (i j : ℕ) (hi : i < l.length) (hj : j < l.length) :
    ((l.set i (l.getD j 0)).set j (l.getD i 0)).Perm l := by
  have h := Equiv.Perm.ofFn_comp_perm (Equiv.swap (⟨i, hi⟩ : Fin l.length) ⟨j, hj⟩)
    (fun x : Fin l.length => l[(x : ℕ)])
  rw [List.ofFn_getElem] at h
  refine List.Perm.trans (List.Perm.of_eq ?_) h
  apply List.ext_getElem
  · simp
  · intro x hx1 hx2
    simp only [List.length_set] at hx1
    simp only [List.getElem_set, List.getElem_ofFn, Function.comp,
      List.getD_eq_getElem l 0 hi, List.getD_eq_getElem l 0 hj]
    by_cases hxj : j = x
    · subst hxj
      simp [Equiv.swap_apply_right]
    · by_cases hxi : i = x
      · subst hxi
        simp [hxj, Equiv.swap_apply_left]
      · have h1 : (⟨x, hx1⟩ : Fin l.length) ≠ ⟨i, hi⟩ := by
          intro h; apply hxi; exact (Fin.mk.inj h).symm
        have h2 : (⟨x, hx1⟩ : Fin l.length) ≠ ⟨j, hj⟩ := by
          intro h; apply hxj; exact (Fin.mk.inj h).symm
        simp [hxj, hxi, Equiv.swap_apply_of_ne_of_ne h1 h2]


section ScoreAccess

variable {α : Type} [Inhabited α]

theorem score_eq (data : List α) (ind : List ℕ) (j : ℕ) (hj : j < ind.length) :
    score data ind j = data.getD ind[j] default := by
  unfold score
  rw [List.getD_eq_getElem ind 0 hj]

theorem score_swap (data : List α) (ind : List ℕ) (i j x : ℕ) (hi : i < ind.length)
    (hj : j < ind.length) (hij : i ≠ j) :
    score data ((ind.set i (ind.getD j 0)).set j (ind.getD i 0)) x =
      if x = j then score data ind i else if x = i then score data ind j
      else score data ind x := by
  unfold score
  rw [getD_set, getD_set]
  by_cases hxj : x = j
  · subst hxj
    simp [hj]
  · have h1 : ¬ (j = x ∧ j < (ind.set i (ind.getD j 0)).length) := fun h => hxj h.1.symm
    rw [if_neg h1, if_neg hxj]
    by_cases hxi : x = i
    · subst hxi
      simp [hi]
    · have h2 : ¬ (i = x ∧ i < ind.length) := fun h => hxi h.1.symm
      rw [if_neg h2, if_neg hxi]

end ScoreAccess

section TopKTheorems

variable {α : Type} [LinearOrder α] [Inhabited α]

theorem initIndices_eq (k : ℕ) (indices : List ℕ) (hlen : indices.length = k) :
    initIndices k indices = List.range k := by
  have h := foldl_range'_inv (fun ind i => List.set ind i i)
    (fun m ind => ind.length = k ∧ ∀ j, j < m → ind.getD j 0 = j) k 0 indices
    ⟨hlen, fun j hj => absurd hj (Nat.not_lt_zero j)⟩
    (by
      intro i b _ hi hP
      refine ⟨by simpa using hP.1, ?_⟩
      intro j hj
      rw [getD_set]
      by_cases hij : i = j
      · simp [hij, hP.1]; omega
      · rw [if_neg (fun h => hij h.1)]
        exact hP.2 j (by omega))
  simp only [Nat.zero_add] at h
  apply List.ext_getElem
  · simpa [initIndices] using h.1
  · intro j h1 h2
    have hj : j < k := by simpa using h2
    have := h.2 j hj
    rw [List.getD_eq_getElem _ _ (by rw [h.1]; exact hj)] at this
    simpa [initIndices] using this

theorem findMin_spec (data : List α) (indices : List ℕ) (k : ℕ) (hk : 1 ≤ k) :
    findMin data indices k < k ∧
      ∀ j, j < k → score data indices (findMin data indices k) ≤ score data indices j := by
  have h := foldl_range'_inv
    (fun min_idx j => if score data indices j < score data indices min_idx then j else min_idx)
    (fun J m => m < J ∧ ∀ j, j < J → score data indices m ≤ score data indices j)
    (k - 1) 1 0
    ⟨by omega, fun j hj => by
      have : j = 0 := by omega
      subst this; exact le_rfl⟩
    (by
      intro i m _ _ hP
      by_cases hlt : score data indices i < score data indices m
      · simp only [if_pos hlt]
        refine ⟨by omega, fun j hj => ?_⟩
        rcases Nat.lt_succ_iff_lt_or_eq.mp hj with hj' | rfl
        · exact hlt.le.trans (hP.2 j hj')
        · exact le_rfl
      · simp only [if_neg hlt]
        refine ⟨by omega, fun j hj => ?_⟩
        rcases Nat.lt_succ_iff_lt_or_eq.mp hj with hj' | rfl
        · exact hP.2 j hj'
        · exact not_lt.mp hlt)
  rw [show 1 + (k - 1) = k by omega] at h
  exact h


theorem score_le_of_mem (data : List α) (ind : List ℕ) (k m : ℕ) (hlen : ind.length = k)
    (hmin : ∀ j, j < k → score data ind m ≤ score data ind j) (q : ℕ) (hq : q ∈ ind) :
    score data ind m ≤ data.getD q default := by
  obtain ⟨j, hj, rfl⟩ := List.mem_iff_getElem.mp hq
  have := hmin j (hlen ▸ hj)
  rwa [score_eq data ind j hj] at this

theorem selectStep_inv (data : List α) (k i : ℕ) (ind : List ℕ) (hk : 1 ≤ k)
    (h : TopInv data k i ind) : TopInv data k (i + 1) (selectStep data k ind i) := by
  obtain ⟨hlen, hnd, hlt, hdom⟩ := h
  obtain ⟨hm, hmin⟩ := findMin_spec data ind k hk
  have hminq := score_le_of_mem data ind k _ hlen hmin
  have hi : i ∉ ind := fun hmem => lt_irrefl i (hlt i hmem)
  unfold selectStep
  simp only
  by_cases hgt : data.getD i default > score data ind (findMin data ind k)
  · rw [if_pos hgt]
    have hmlen : findMin data ind k < ind.length := hlen ▸ hm
    have himem : i ∈ ind.set (findMin data ind k) i := by
      rw [List.mem_iff_getElem]
      exact ⟨findMin data ind k, by simpa using hmlen, by simp⟩
    refine ⟨by simpa using hlen, hnd.set hi, ?_, ?_⟩
    · intro x hx
      rcases List.mem_or_eq_of_mem_set hx with hx | rfl
      · exact Nat.lt_succ_of_lt (hlt x hx)
      · exact Nat.lt_succ_self _
    · intro p hp hpn q hq
      have hpi : p ≠ i := fun hpi => hpn (hpi ▸ himem)
      have hp' : p < i := by omega
      have hpm : data.getD p default ≤ score data ind (findMin data ind k) := by
        by_cases hpmem : p ∈ ind
        · obtain ⟨j, hj, hjp⟩ := List.mem_iff_getElem.mp hpmem
          have hjm : j = findMin data ind k := by
            by_contra hne
            apply hpn
            rw [List.mem_iff_getElem]
            refine ⟨j, by simpa using hj, ?_⟩
            rw [List.getElem_set, if_neg (fun h => hne h.symm)]
            exact hjp
          subst hjm
          rw [← hjp, score_eq data ind _ hj]
        · have hq0 : ind[findMin data ind k] ∈ ind := List.getElem_mem hmlen
          rw [score_eq data ind _ hmlen]
          exact hdom p hp' hpmem _ hq0
      rcases List.mem_or_eq_of_mem_set hq with hq | rfl
      · exact hpm.trans (hminq q hq)
      · exact hpm.trans hgt.le
  · rw [if_neg hgt]
    refine ⟨hlen, hnd, fun x hx => Nat.lt_succ_of_lt (hlt x hx), ?_⟩
    intro p hp hpn q hq
    rcases Nat.lt_succ_iff_lt_or_eq.mp hp with hp' | rfl
    · exact hdom p hp' hpn q hq
    · exact (not_lt.mp hgt).trans (hminq q hq)

theorem selectPass_inv (data : List α) (n k : ℕ) (indices : List ℕ) (hk : 1 ≤ k) (hkn : k ≤ n)
    (hlen : indices.length = k) :
    TopInv data k n (selectPass data n k (initIndices k indices)) := by
  rw [initIndices_eq k indices hlen]
  have h := foldl_range'_inv (selectStep data k) (fun i ind => TopInv data k i ind)
    (n - k) k (List.range k)
    ⟨List.length_range k, List.nodup_range k, fun x hx => List.mem_range.mp hx,
      fun p hp hpn => absurd (List.mem_range.mpr hp) hpn⟩
    (fun i b _ _ hP => selectStep_inv data k i b hk hP)
  rw [show k + (n - k) = n by omega] at h
  exact h


theorem swapStep_perm (data : List α) (i j : ℕ) (ind : List ℕ) (hi : i < ind.length)
    (hj : j < ind.length) : (swapStep data i ind j).Perm ind := by
  unfold swapStep
  split
  · exact swap_perm ind i j hi hj
  · exact List.Perm.refl _

theorem sortPass_perm (data : List α) (k : ℕ) (indices : List ℕ) (hlen : indices.length = k) :
    (sortPass data k indices).Perm indices := by
  have h := foldl_range'_inv
    (fun ind i => (List.range' (i + 1) (k - (i + 1))).foldl (swapStep data i) ind)
    (fun _ ind => ind.Perm indices) (k - 1) 0 indices (List.Perm.refl _)
    (by
      intro i b _ hi hP
      have hin := foldl_range'_inv (swapStep data i) (fun _ ind => ind.Perm indices)
        (k - (i + 1)) (i + 1) b hP
        (by
          intro j c hj1 hj2 hQ
          have hc : c.length = k := hQ.length_eq.trans hlen
          exact (swapStep_perm data i j c (by omega) (by omega)).trans hQ)
      exact hin)
  exact h

theorem swapStep_inv (data : List α) (k i j : ℕ) (ind : List ℕ) (hlen : ind.length = k)
    (hij : i < j) (hjk : j < k) (hpre : PrefixSorted data k i ind)
    (hcur : ∀ b, i < b → b < j → score data ind b ≤ score data ind i) :
    (swapStep data i ind j).length = k ∧ PrefixSorted data k i (swapStep data i ind j) ∧
      ∀ b, i < b → b < j + 1 →
        score data (swapStep data i ind j) b ≤ score data (swapStep data i ind j) i := by
  unfold swapStep
  by_cases hgt : score data ind j > score data ind i
  · rw [if_pos hgt]
    have hi' : i < ind.length := by omega
    have hj' : j < ind.length := by omega
    have hne : i ≠ j := by omega
    refine ⟨by simpa using hlen, ?_, ?_⟩
    · intro a b ha hab hb
      rw [score_swap data ind i j a hi' hj' hne, score_swap data ind i j b hi' hj' hne]
      rw [if_neg (by omega : ¬ a = j), if_neg (by omega : ¬ a = i)]
      split
      · exact hpre a i ha (by omega) (by omega)
      · split
        · exact hpre a j ha (by omega) hjk
        · exact hpre a b ha hab hb
    · intro b hb1 hb2
      rw [score_swap data ind i j b hi' hj' hne, score_swap data ind i j i hi' hj' hne]
      rw [if_neg hne, if_pos rfl, if_neg (by omega : ¬ b = i)]
      split
      · exact hgt.le
      · exact (hcur b hb1 (by omega)).trans hgt.le
  · rw [if_neg hgt]
    refine ⟨hlen, hpre, ?_⟩
    intro b hb1 hb2
    rcases Nat.lt_succ_iff_lt_or_eq.mp hb2 with hb | rfl
    · exact hcur b hb1 hb
    · exact not_lt.mp hgt

theorem sortPass_sorted (data : List α) (k : ℕ) (indices : List ℕ) (hlen : indices.length = k) :
    (sortPass data k indices).length = k ∧ PrefixSorted data k (k - 1) (sortPass data k indices) := by
  have h := foldl_range'_inv
    (fun ind i => (List.range' (i + 1) (k - (i + 1))).foldl (swapStep data i) ind)
    (fun i ind => ind.length = k ∧ PrefixSorted data k i ind) (k - 1) 0 indices
    ⟨hlen, fun a b ha => absurd ha (Nat.not_lt_zero a)⟩
    (by
      intro i b _ hi hP
      have hin := foldl_range'_inv (swapStep data i)
        (fun J ind => ind.length = k ∧ PrefixSorted data k i ind ∧
          ∀ b, i < b → b < J → score data ind b ≤ score data ind i)
        (k - (i + 1)) (i + 1) b ⟨hP.1, hP.2, fun b h1 h2 => by omega⟩
        (by
          intro j c hj1 hj2 hQ
          exact swapStep_inv data k i j c hQ.1 (by omega) (by omega) hQ.2.1 hQ.2.2)
      rw [show i + 1 + (k - (i + 1)) = k by omega] at hin
      refine ⟨hin.1, ?_⟩
      intro a b ha hab hb
      rcases Nat.lt_succ_iff_lt_or_eq.mp ha with ha' | rfl
      · exact hin.2.1 a b ha' hab hb
      · exact hin.2.2 b hab hb)
  simpa using h


/-- C7: `top_k` finds the top-k indices.  For scores in a linear order, `data` of length `n`
and `1 ≤ k ≤ n`, after `top_k(data, n, indices, k)` the `k` entries of `indices` are pairwise
distinct positions below `n`, every position of `data` not among them has a score at most
the score of every position among them, and `data` is unchanged. -/
theorem top_k_selects (data : List α) (n k : ℕ) (indices : List ℕ)
    (hn : data.length = n) (hlen : indices.length = k) (hk : 1 ≤ k) (hkn : k ≤ n) :
    (top_k data n indices k).2.length = k ∧
    (top_k data n indices k).2.Nodup ∧
    (∀ q ∈ (top_k data n indices k).2, q < data.length) ∧
    (∀ p, p < n → p ∉ (top_k data n indices k).2 →
      ∀ q ∈ (top_k data n indices k).2, data.getD p default ≤ data.getD q default) ∧
    (top_k data n indices k).1 = data := by
  obtain ⟨hl, hnd, hlt, hdom⟩ := selectPass_inv data n k indices hk hkn hlen
  have hperm := sortPass_perm data k (selectPass data n k (initIndices k indices)) hl
  refine ⟨hperm.length_eq.trans hl, (hperm.nodup_iff).mpr hnd, ?_, ?_, rfl⟩
  · intro q hq
    rw [hn]
    exact hlt q ((hperm.mem_iff).mp hq)
  · intro p hp hpn q hq
    exact hdom p hp (fun h => hpn ((hperm.mem_iff).mpr h)) q ((hperm.mem_iff).mp hq)

/-- C7 at a concrete input: the three best of eight scores. -/
theorem top_k_selects_witness :
    (top_k [3, 1, 4, 1, 5, 9, 2, 6] 8 [0, 0, 0] 3).2.length = 3 ∧
    (top_k [3, 1, 4, 1, 5, 9, 2, 6] 8 [0, 0, 0] 3).2.Nodup ∧
    (∀ q ∈ (top_k [3, 1, 4, 1, 5, 9, 2, 6] 8 [0, 0, 0] 3).2,
      q < [3, 1, 4, 1, 5, 9, 2, 6].length) ∧
    (∀ p, p < 8 → p ∉ (top_k [3, 1, 4, 1, 5, 9, 2, 6] 8 [0, 0, 0] 3).2 →
      ∀ q ∈ (top_k [3, 1, 4, 1, 5, 9, 2, 6] 8 [0, 0, 0] 3).2,
        [3, 1, 4, 1, 5, 9, 2, 6].getD p default ≤ [3, 1, 4, 1, 5, 9, 2, 6].getD q default) ∧
    (top_k [3, 1, 4, 1, 5, 9, 2, 6] 8 [0, 0, 0] 3).1 = [3, 1, 4, 1, 5, 9, 2, 6] :=
  top_k_selects ([3, 1, 4, 1, 5, 9, 2, 6] : List ℕ) 8 3 [0, 0, 0] (by decide) (by decide)
    (by decide) (by decide)

/-- C8: `top_k` returns its result sorted by score descending.  For scores in a linear order,
`data` of length `n` and `1 ≤ k ≤ n`, `data[indices[i]] ≥ data[indices[i+1]]` for every
`i` with `i + 1 < k`, and the exchange sort only permutes the `k` indices chosen by the
selection pass. -/
theorem top_k_sorted (data : List α) (n k : ℕ) (indices : List ℕ)
    (hn : data.length = n) (hlen : indices.length = k) (hk : 1 ≤ k) (hkn : k ≤ n) :
    (∀ i, i + 1 < k →
      data.getD ((top_k data n indices k).2.getD (i + 1) 0) default
        ≤ data.getD ((top_k data n indices k).2.getD i 0) default) ∧
    (top_k data n indices k).2.Perm (selectPass data n k (initIndices k indices)) ∧
    (∀ q ∈ selectPass data n k (initIndices k indices), q < data.length) := by
  obtain ⟨hl, _, hlt, _⟩ := selectPass_inv data n k indices hk hkn hlen
  have hsorted := (sortPass_sorted data k (selectPass data n k (initIndices k indices)) hl).2
  have hperm := sortPass_perm data k (selectPass data n k (initIndices k indices)) hl
  refine ⟨?_, hperm, fun q hq => hn ▸ hlt q hq⟩
  intro i hi
  exact hsorted i (i + 1) (by omega) (by omega) hi

/-- C8 at a concrete input: the three best of eight scores come out as positions 5, 7, 4. -/
theorem top_k_sorted_witness :
    (top_k [3, 1, 4, 1, 5, 9, 2, 6] 8 [0, 0, 0] 3).2 = [5, 7, 4] ∧
    ((∀ i, i + 1 < 3 →
      [3, 1, 4, 1, 5, 9, 2, 6].getD
          ((top_k [3, 1, 4, 1, 5, 9, 2, 6] 8 [0, 0, 0] 3).2.getD (i + 1) 0) default
        ≤ [3, 1, 4, 1, 5, 9, 2, 6].getD
          ((top_k [3, 1, 4, 1, 5, 9, 2, 6] 8 [0, 0, 0] 3).2.getD i 0) default) ∧
    (top_k [3, 1, 4, 1, 5, 9, 2, 6] 8 [0, 0, 0] 3).2.Perm
      (selectPass [3, 1, 4, 1, 5, 9, 2, 6] 8 3 (initIndices 3 [0, 0, 0])) ∧
    (∀ q ∈ selectPass [3, 1, 4, 1, 5, 9, 2, 6] 8 3 (initIndices 3 [0, 0, 0]),
      q < [3, 1, 4, 1, 5, 9, 2, 6].length)) :=
  ⟨by decide,
   top_k_sorted ([3, 1, 4, 1, 5, 9, 2, 6] : List ℕ) 8 3 [0, 0, 0] (by decide) (by decide)
    (by decide) (by decide)⟩

end TopKTheorems
